import Mathlib

/-!
Verification of the `chunked-promise` / `q-chunk` repository.

The JavaScript source is shallowly embedded as pure Lean functions:

* Tasks are zero-argument asynchronous functions.  A task is modelled by the
  outcome of awaiting it (`Except` of an error universe) together with the
  number of milliseconds it takes to settle (`dur`), which drives the timeout
  race and the order in which concurrently dispatched tasks settle.
* The JavaScript event loop is modelled with an explicit millisecond clock
  (`Int`, the value of `Date.now()`).  Synchronous stretches of code happen at
  one clock value; an `await` of a sleep or of a task advances the clock.
  `AbortSignal.aborted` is modelled as a function from the clock to `Bool`,
  sampled exactly where the source calls `checkAbort`.
* `Promise.all` over a batch collects results by index (the array position),
  regardless of settlement times; settlement times only determine the order
  of the per-task progress callbacks and the time at which the batch joins.
* JavaScript numbers holding millisecond clock values are modelled as `Int`;
  counts and sizes as `Nat`.
-/

namespace QChunk

/-- Error universe of the library: `AbortError` and `TimeoutError` are the two
distinguished error classes exported by the source; `userError` is an
arbitrary error thrown by a task body itself. -/
inductive JsError (ε : Type) where
  | abortError
  | timeoutError
  | userError (e : ε)
deriving DecidableEq, Repr

/-- A task: `run` is the settled outcome of awaiting `fn()` (a value, or the
error it throws — which may itself be an `AbortError` raised inside the task),
and `dur` is the time in ms from invocation to settlement. -/
structure Task (α ε : Type) where
  run : Except (JsError ε) α
  dur : Nat
deriving Repr

/-- `TaskResult` of the source: `{status: 'fulfilled', value}` or
`{status: 'rejected', reason}`. -/
inductive TaskResult (α ε : Type) where
  | fulfilled (value : α)
  | rejected (reason : JsError ε)
deriving DecidableEq, Repr

/-- `ProgressInfo` of the source: `{done, total, results}` passed to
`onProgress`. -/
structure ProgressInfo (α ε : Type) where
  done : Nat
  total : Nat
  results : List (TaskResult α ε)
deriving DecidableEq, Repr

/-- Options record of the source.  `onProgress` is always observed (the model
returns the full trace of snapshots); `signal.aborted` is the function `sig`
of the current clock value; `timeout = 0` and `rateLimit = 0` model the
JavaScript falsy “absent” cases. -/
structure Opts where
  timeout : Nat
  rateLimit : Nat
  sig : Int → Bool

/-- `withTimeout` (source lines 58–66): with no timeout just await the task;
otherwise race it against a `TimeoutError` timer.  The timer fires strictly
after `timeout` ms; the task settles at `dur` ms, and the racer that settles
first wins (on a tie the task wins, its promise having been created first). -/
def withTimeout {α ε : Type} (t : Task α ε) (timeout : Nat) : Except (JsError ε) α :=
  if timeout = 0 then t.run
  else if timeout < t.dur then .error .timeoutError
  else t.run

/-- Time in ms from dispatch of `execTask` to its settlement: the task's own
duration, clipped by the timeout timer when one is configured. -/
def settleDelta {α ε : Type} (t : Task α ε) (timeout : Nat) : Nat :=
  if timeout = 0 then t.dur else min t.dur timeout

/-- `execTask` (source lines 74–81): run the task under `withTimeout` and
convert any outcome — value or thrown error — into a settled `TaskResult`. -/
def execTask {α ε : Type} (t : Task α ε) (timeout : Nat) : TaskResult α ε :=
  match withTimeout t timeout with
  | .ok v => .fulfilled v
  | .error e => .rejected e

/-- `getRateLimitDelay` (source lines 89–96).  `now` is the value of
`Date.now()` during this synchronous computation.  The JavaScript
`timestamps.find(t => t > windowStart) || timestamps[0]` falls back to
`timestamps[0]` both when `find` misses and when the found value is the falsy
number `0`; both fallbacks are modelled. -/
def getRateLimitDelay (timestamps : List Int) (rateLimit : Nat) (now : Int) : Int :=
  if rateLimit = 0 ∨ timestamps.length < rateLimit then 0
  else
    let windowStart := now - 1000
    if (timestamps.filter (fun t => windowStart < t)).length < rateLimit then 0
    else
      let oldestInWindow :=
        match timestamps.find? (fun t => windowStart < t) with
        | some t => if t = 0 then timestamps.headD 0 else t
        | none => timestamps.headD 0
      max 0 (oldestInWindow + 1000 - now + 10)

/-- The `while (l.length > k) l.shift()` pruning loop of the source: drop
elements from the front until at most `k` remain. -/
def pruneWindow (k : Nat) (l : List Int) : List Int :=
  l.drop (l.length - k)

/-- Recording one dispatch in `q` (source lines 118–120): push `Date.now()`
and prune to at most `rateLimit` entries. -/
def recordSeq (timestamps : List Int) (now : Int) (rateLimit : Nat) : List Int :=
  pruneWindow rateLimit (timestamps ++ [now])

/-- Recording one dispatch in `chunk` (source lines 160–162): push
`Date.now()` and prune to at most `rateLimit * 2` entries. -/
def recordBatch (timestamps : List Int) (now : Int) (rateLimit : Nat) : List Int :=
  pruneWindow (2 * rateLimit) (timestamps ++ [now])

/-- Observable final state of a run: the trace of progress snapshots, the
rate limiter's timestamp list, the clock at return, and—instrumentation for
the cancellation semantics—how many tasks were dispatched (their batch
callback started) and how many of those ran to settlement. -/
structure RunLog (α ε : Type) where
  trace : List (ProgressInfo α ε)
  timestamps : List Int
  now : Int
  dispatched : Nat
  settled : Nat
deriving Repr

/-- The rate-limiting block of `q` (source lines 115–121): when a limit is
configured, compute the delay, sleep it off (advancing the clock), then push
the post-sleep `Date.now()` and prune.  Returns the new clock and timestamp
list. -/
def qRate (o : Opts) (now : Int) (ts : List Int) : Int × List Int :=
  if o.rateLimit = 0 then (now, ts)
  else
    let d := getRateLimitDelay ts o.rateLimit now
    (now + d, recordSeq ts (now + d) o.rateLimit)

/-- Loop body of `q` (source lines 111–130), strictly sequential.  Each
iteration: checkpoint, rate-limit sleep + record, checkpoint again, execute,
append, report progress.  The clock advances across the sleep and across the
awaited task. -/
def qGo {α ε : Type} (o : Opts) (total : Nat) :
    List (Task α ε) → Int → List Int → List (TaskResult α ε) → List (ProgressInfo α ε) →
    Except (JsError ε) (List (TaskResult α ε)) × RunLog α ε
  | [], now, ts, results, trace =>
    (.ok results, ⟨trace, ts, now, results.length, results.length⟩)
  | fn :: rest, now, ts, results, trace =>
    if o.sig now then (.error .abortError, ⟨trace, ts, now, results.length, results.length⟩)
    else
      let p := qRate o now ts
      if o.sig p.1 then
        (.error .abortError, ⟨trace, p.2, p.1, results.length, results.length⟩)
      else
        let results1 := results ++ [execTask fn o.timeout]
        qGo o total rest (p.1 + (settleDelta fn o.timeout : Int)) p.2 results1
          (trace ++ [⟨results1.length, total, results1⟩])

/-- `q` (source lines 105–133) started from a given rate-limiter state (used
by the pool); `t0` is the clock at the call. -/
def qRunFrom {α ε : Type} (fns : List (Task α ε)) (o : Opts) (t0 : Int) (ts0 : List Int) :
    Except (JsError ε) (List (TaskResult α ε)) × RunLog α ε :=
  qGo o fns.length fns t0 ts0 [] []

/-- `q` as exported: a fresh empty rate-limiter state per invocation. -/
def qRun {α ε : Type} (fns : List (Task α ε)) (o : Opts) (t0 : Int) :
    Except (JsError ε) (List (TaskResult α ε)) × RunLog α ε :=
  qRunFrom fns o t0 []

/-- One concurrently dispatched task of a batch: its position `idx` in the
batch, the task, and `resumeAt` — the clock value at which its callback runs
the `checkAbort` of line 165 and starts `execTask`.  `resumeAt` is the
dispatch time `T` of the batch unless the callback slept for a positive
rate-limit delay, in which case it is `T + delay`. -/
structure Disp (α ε : Type) where
  idx : Nat
  task : Task α ε
  resumeAt : Int
deriving Repr

/-- Sort key order on `(time, batch index)`: earlier time first, ties broken
by index (timers registered earlier fire first in the event loop). -/
def keyLeB (a b : Int × Nat) : Bool :=
  decide (a.1 < b.1) || (decide (a.1 = b.1) && decide (a.2 ≤ b.2))

def insertByKey {α ε : Type} (κ : Disp α ε → Int × Nat) (d : Disp α ε) :
    List (Disp α ε) → List (Disp α ε)
  | [] => [d]
  | x :: xs => if keyLeB (κ d) (κ x) then d :: x :: xs else x :: insertByKey κ d xs

/-- Chronological ordering of event-loop callbacks sharing a batch. -/
def sortByKey {α ε : Type} (κ : Disp α ε → Int × Nat) (l : List (Disp α ε)) :
    List (Disp α ε) :=
  l.foldr (insertByKey κ) []

def resumeKey {α ε : Type} (d : Disp α ε) : Int × Nat := (d.resumeAt, d.idx)

/-- The clock value at which a dispatched task's `execTask` settles, and the
key ordering the per-task progress callbacks. -/
def settleKey {α ε : Type} (timeout : Nat) (d : Disp α ε) : Int × Nat :=
  (d.resumeAt + (settleDelta d.task timeout : Int), d.idx)

/-- The synchronous dispatch pass of `batch.map(async (fn, i) => ...)`
(source lines 155–163): callbacks start in index order within one clock tick
`T`.  A callback that needs no rate limiting, or whose computed delay is `0`,
records its timestamp immediately and proceeds; a callback with a positive
delay suspends and will record at `T + delay` (so its timestamp is not yet
visible to the later callbacks of this pass). -/
def dispatchPass {α ε : Type} (o : Opts) (T : Int) :
    List (Task α ε) → Nat → List Int → List Int × List (Disp α ε)
  | [], _, ts => (ts, [])
  | fn :: rest, i, ts =>
    if o.rateLimit = 0 then
      let p := dispatchPass o T rest (i + 1) ts
      (p.1, ⟨i, fn, T⟩ :: p.2)
    else
      let d := getRateLimitDelay ts o.rateLimit T
      if 0 < d then
        let p := dispatchPass o T rest (i + 1) ts
        (p.1, ⟨i, fn, T + d⟩ :: p.2)
      else
        let p := dispatchPass o T rest (i + 1) (recordBatch ts T o.rateLimit)
        (p.1, ⟨i, fn, T⟩ :: p.2)

/-- Delayed callbacks resume in chronological order, each pushing
`Date.now()` and pruning (source lines 160–162) before its abort checkpoint. -/
def resumePass {α ε : Type} (rateLimit : Nat) (sorted : List (Disp α ε)) (ts : List Int) :
    List Int :=
  sorted.foldl (fun acc d => recordBatch acc d.resumeAt rateLimit) ts

/-- `Promise.all` of the batch resolves when its last member settles. -/
def maxSettle {α ε : Type} (timeout : Nat) (T : Int) (dsp : List (Disp α ε)) : Int :=
  dsp.foldl (fun acc d => max acc (d.resumeAt + (settleDelta d.task timeout : Int))) T

/-- Everything one batch of `chunk` produces. -/
structure GroupOut (α ε : Type) where
  /-- rate-limiter state after all of the batch's records (including those of
  callbacks that resume after the run has already rejected). -/
  ts : List Int
  /-- the dispatched callbacks, in batch index order. -/
  dsp : List (Disp α ε)
  /-- the callbacks that pass their line-165 abort checkpoint; exactly these
  run `execTask` to settlement and fire a per-task progress event. -/
  alive : List (Disp α ε)
  /-- per-task progress events (source lines 169–172), in settlement order:
  `done` is `results.length + i + 1` for batch position `i`, clamped to
  `total`; the snapshot is `[...results, result]`. -/
  events : List (ProgressInfo α ε)
  /-- clock at which `Promise.all` resolves. -/
  nextT : Int

/-- One batch of the `chunk` loop, dispatching at clock `T` with accumulator
`results` (source lines 153–176). -/
def stepGroup {α ε : Type} (o : Opts) (total : Nat) (T : Int) (batch : List (Task α ε))
    (ts : List Int) (results : List (TaskResult α ε)) : GroupOut α ε :=
  let p := dispatchPass o T batch 0 ts
  let dsp := p.2
  let delayed := dsp.filter fun d => T < d.resumeAt
  let ts2 := resumePass o.rateLimit (sortByKey resumeKey delayed) p.1
  let alive := dsp.filter fun d => !(o.sig d.resumeAt)
  let events := (sortByKey (settleKey o.timeout) alive).map fun d =>
    (⟨min (results.length + d.idx + 1) total, total,
      results ++ [execTask d.task o.timeout]⟩ : ProgressInfo α ε)
  ⟨ts2, dsp, alive, events, maxSettle o.timeout T dsp⟩

/-- The `while (index < fns.length)` loop of `chunk` (source lines 150–185),
with a fuel parameter for the loop iterations: `none` means the fuel was
exhausted, i.e. the loop ran that many iterations without terminating.  If
any callback of the batch hits its abort checkpoint, `Promise.all` rejects
and the whole call rejects with `AbortError`; the surviving callbacks still
settle in the background (their progress events fire, their timestamps are
recorded) but the batch is never appended to `results`.  On an abort the
returned clock is the dispatch time of the failed batch. -/
def chunkLoop {α ε : Type} (o : Opts) (fns : List (Task α ε)) (n : Nat) :
    Nat → Nat → Int → List Int → List (TaskResult α ε) → List (ProgressInfo α ε) →
    Nat → Nat → Option (Except (JsError ε) (List (TaskResult α ε)) × RunLog α ε)
  | 0, _, _, _, _, _, _, _ => none
  | fuel + 1, index, T, ts, results, trace, dc, sc =>
    if index < fns.length then
      if o.sig T then some (.error .abortError, ⟨trace, ts, T, dc, sc⟩)
      else
        let g := stepGroup o fns.length T ((fns.drop index).take n) ts results
        if g.alive.length = g.dsp.length then
          let results2 := results ++ g.dsp.map fun d => execTask d.task o.timeout
          chunkLoop o fns n fuel (index + n) g.nextT g.ts results2
            (trace ++ g.events ++ [⟨results2.length, fns.length, results2⟩])
            (dc + g.dsp.length) (sc + g.alive.length)
        else
          some (.error .abortError,
            ⟨trace ++ g.events, g.ts, T, dc + g.dsp.length, sc + g.alive.length⟩)
    else some (.ok results, ⟨trace, ts, T, dc, sc⟩)

/-- `chunk` (source lines 143–188) started from a given rate-limiter state
(used by the pool).  `fns.length + 1` loop iterations always suffice when
`n ≥ 1`; with `n = 0` the source loop never advances `index`, which the model
reports as `none`. -/
def chunkTimedFrom {α ε : Type} (fns : List (Task α ε)) (n : Nat) (o : Opts) (t0 : Int)
    (ts0 : List Int) :
    Option (Except (JsError ε) (List (TaskResult α ε)) × RunLog α ε) :=
  chunkLoop o fns n (fns.length + 1) 0 t0 ts0 [] [] 0 0

/-- `chunk` as exported: a fresh empty rate-limiter state per invocation. -/
def chunkTimed {α ε : Type} (fns : List (Task α ε)) (n : Nat) (o : Opts) (t0 : Int) :
    Option (Except (JsError ε) (List (TaskResult α ε)) × RunLog α ε) :=
  chunkTimedFrom fns n o t0 []

/-! ### The bare recursive variant (`src/q-chunk.js`) -/

/-- The tasks of a list that reject, as `((settle time, index), reason)`
entries. -/
def rejectionsFrom {α ε : Type} : List (Task α ε) → Nat → List ((Nat × Nat) × JsError ε)
  | [], _ => []
  | t :: rest, i =>
    match t.run with
    | .error e => ((t.dur, i), e) :: rejectionsFrom rest (i + 1)
    | .ok _ => rejectionsFrom rest (i + 1)

/-- Of two rejections, the one that settles first (earliest time, ties broken
by index — registration order). -/
def pickEarlier {ε : Type} (acc : Option ((Nat × Nat) × JsError ε))
    (x : (Nat × Nat) × JsError ε) : Option ((Nat × Nat) × JsError ε) :=
  match acc with
  | none => some x
  | some y => if keyLeB ((x.1.1 : Int), x.1.2) ((y.1.1 : Int), y.1.2) then some x else some y

/-- `Promise.all(fns.slice(0, n).map(f => f()))` over raw task calls: if any
task rejects, the join rejects with the reason of the first task to settle
rejected — earliest `dur` wins, ties broken by index. -/
def firstRejection {α ε : Type} (ts : List (Task α ε)) : Option (JsError ε) :=
  ((rejectionsFrom ts 0).foldl pickEarlier none).map (·.2)

/-- `Promise.all` over raw task calls: all values in index order, or the
chronologically first rejection. -/
def promiseAllRaw {α ε : Type} (ts : List (Task α ε)) : Except (JsError ε) (List α) :=
  match firstRejection ts with
  | some e => .error e
  | none => .ok (ts.filterMap fun t => t.run.toOption)

/-- The divide-and-conquer `chunk` of `src/q-chunk.js` (lines 25–29):
`fns.length ? [...await Promise.all(slice(0,n).map(f => f())), ...await chunk(slice(n), n)] : []`,
with a fuel parameter for the recursion depth (`none` = fuel exhausted, i.e.
the recursion did not terminate within that depth). -/
def chunkRecFuel {α ε : Type} (n : Nat) :
    Nat → List (Task α ε) → Option (Except (JsError ε) (List α))
  | 0, _ => none
  | _ + 1, [] => some (.ok [])
  | fuel + 1, fn :: rest =>
    match promiseAllRaw ((fn :: rest).take n) with
    | .error e => some (.error e)
    | .ok vs =>
      match chunkRecFuel n fuel ((fn :: rest).drop n) with
      | none => none
      | some (.error e) => some (.error e)
      | some (.ok ws) => some (.ok (vs ++ ws))

/-- The recursive `chunk` with the standard fuel budget (`fns.length + 1`
levels always suffice when `n ≥ 1`). -/
def chunkRec {α ε : Type} (fns : List (Task α ε)) (n : Nat) :
    Option (Except (JsError ε) (List α)) :=
  chunkRecFuel n (fns.length + 1) fns

/-! ### The pool

`createPool` is documented in the repository README and specified in §4.5 of
the spec, but its implementation is not among the provided source files, so
it is modelled from the spec. -/

/-- Default options a pool stores (per-call data — task list, batch size,
signal, start clock — arrives with each call). -/
structure PoolDefaults where
  timeout : Nat
  rateLimit : Nat

/-- Modelled from the spec: the `PoolState` of §3/§4.5 — `createPool` is
missing from the provided sources.  A pool owns exactly one rate-limiter
state (this single `limiter` field) plus the stored default options. -/
structure Pool where
  defaults : PoolDefaults
  limiter : List Int

/-- Modelled from the spec: `makePool(options)` allocates one fresh (empty)
shared `RateLimiterState` and stores the default options. -/
def makePool (o : PoolDefaults) : Pool :=
  ⟨o, []⟩

/-- One invocation of a pool-bound entry point: the Sequencer (`q`) or the
Batcher (`chunk`), with its per-call task list, signal and start clock. -/
inductive PoolCall (α ε : Type) where
  | sequentialRun (fns : List (Task α ε)) (sig : Int → Bool) (t0 : Int)
  | batchedRun (fns : List (Task α ε)) (n : Nat) (sig : Int → Bool) (t0 : Int)

/-- Modelled from the spec: the two entry points returned by `makePool` are
the Sequencer and Batcher algorithms, started from — and writing back — the
pool's one shared rate-limiter state.  A diverging batched call (`n = 0`)
never returns, modelled as leaving the pool unchanged with no result. -/
def runPool {α ε : Type} (p : Pool) :
    PoolCall α ε → Pool × Option (Except (JsError ε) (List (TaskResult α ε)))
  | .sequentialRun fns sig t0 =>
    let r := qRunFrom fns ⟨p.defaults.timeout, p.defaults.rateLimit, sig⟩ t0 p.limiter
    (⟨p.defaults, r.2.timestamps⟩, some r.1)
  | .batchedRun fns n sig t0 =>
    match chunkTimedFrom fns n ⟨p.defaults.timeout, p.defaults.rateLimit, sig⟩ t0 p.limiter with
    | some (out, log) => (⟨p.defaults, log.timestamps⟩, some out)
    | none => (p, none)

/-- The pool state left after a sequence of calls through the two bound entry
points. -/
def poolAfter {α ε : Type} (o : PoolDefaults) (calls : List (PoolCall α ε)) : Pool :=
  calls.foldl (fun p c => (runPool p c).1) (makePool o)

/-- Closed form of the dispatch pass when no rate limit is configured: every
callback of the batch is dispatched at tick `T` with consecutive indices. -/
def dispIdx {α ε : Type} (T : Int) : List (Task α ε) → Nat → List (Disp α ε)
  | [], _ => []
  | fn :: rest, i => ⟨i, fn, T⟩ :: dispIdx T rest (i + 1)

/-! ### Helper lemmas -/

theorem pruneWindow_length_le (k : Nat) (l : List Int) : (pruneWindow k l).length ≤ k := by
  simp only [pruneWindow, List.length_drop]
  omega

theorem recordSeq_length_le (ts : List Int) (now : Int) (r : Nat) :
    (recordSeq ts now r).length ≤ r :=
  pruneWindow_length_le r (ts ++ [now])

theorem recordBatch_length_le (ts : List Int) (now : Int) (r : Nat) :
    (recordBatch ts now r).length ≤ 2 * r :=
  pruneWindow_length_le (2 * r) (ts ++ [now])

/-- `execTask` with no timeout depends only on the task's outcome, not on how
long it takes to settle. -/
theorem execTask_zero {α ε : Type} (t : Task α ε) :
    execTask t 0 = match t.run with
      | .ok v => TaskResult.fulfilled v
      | .error e => TaskResult.rejected e := by
  simp [execTask, withTimeout]

/-- The dispatch pass dispatches exactly the batch, in order. -/
theorem dispatchPass_map_task {α ε : Type} (o : Opts) (T : Int) :
    ∀ (batch : List (Task α ε)) (i : Nat) (ts : List Int),
      ((dispatchPass o T batch i ts).2).map (·.task) = batch := by
  intro batch
  induction batch with
  | nil => intro i ts; simp [dispatchPass]
  | cons fn rest ih =>
    intro i ts
    simp only [dispatchPass]
    split
    · simp [ih]
    · split <;> simp [ih]

theorem dispatchPass_length {α ε : Type} (o : Opts) (T : Int)
    (batch : List (Task α ε)) (i : Nat) (ts : List Int) :
    ((dispatchPass o T batch i ts).2).length = batch.length := by
  have h := dispatchPass_map_task o T batch i ts
  calc ((dispatchPass o T batch i ts).2).length
      = (((dispatchPass o T batch i ts).2).map (·.task)).length := (List.length_map _ _).symm
    _ = batch.length := by rw [h]

/-- Every dispatched callback resumes no earlier than the dispatch tick. -/
theorem dispatchPass_resume_ge {α ε : Type} (o : Opts) (T : Int) :
    ∀ (batch : List (Task α ε)) (i : Nat) (ts : List Int),
      ∀ d ∈ (dispatchPass o T batch i ts).2, T ≤ d.resumeAt := by
  intro batch
  induction batch with
  | nil => intro i ts d hd; simp [dispatchPass] at hd
  | cons fn rest ih =>
    intro i ts d hd
    simp only [dispatchPass] at hd
    split at hd
    · rcases List.mem_cons.mp hd with h | h
      · subst h; exact le_refl T
      · exact ih _ _ d h
    · split at hd
      · rcases List.mem_cons.mp hd with h | h
        · subst h
          have : (0 : Int) < getRateLimitDelay ts o.rateLimit T := by assumption
          simp only []
          omega
        · exact ih _ _ d h
      · rcases List.mem_cons.mp hd with h | h
        · subst h; exact le_refl T
        · exact ih _ _ d h

/-- With no rate limit, every callback of the pass resumes at the dispatch
tick itself. -/
theorem dispatchPass_resume_of_no_rateLimit {α ε : Type} (o : Opts) (T : Int)
    (hr : o.rateLimit = 0) :
    ∀ (batch : List (Task α ε)) (i : Nat) (ts : List Int),
      ∀ d ∈ (dispatchPass o T batch i ts).2, d.resumeAt = T := by
  intro batch
  induction batch with
  | nil => intro i ts d hd; simp [dispatchPass] at hd
  | cons fn rest ih =>
    intro i ts d hd
    simp only [dispatchPass, hr, if_pos] at hd
    rcases List.mem_cons.mp hd with h | h
    · subst h; rfl
    · exact ih _ _ d h

/-- With no rate limit, the dispatch pass leaves the timestamp list alone. -/
theorem dispatchPass_ts_of_no_rateLimit {α ε : Type} (o : Opts) (T : Int)
    (hr : o.rateLimit = 0) :
    ∀ (batch : List (Task α ε)) (i : Nat) (ts : List Int),
      (dispatchPass o T batch i ts).1 = ts := by
  intro batch
  induction batch with
  | nil => intro i ts; simp [dispatchPass]
  | cons fn rest ih =>
    intro i ts
    simp only [dispatchPass, hr, if_pos]
    exact ih _ _

theorem map_execTask_comp {α ε : Type} (timeout : Nat) (l : List (Disp α ε)) :
    l.map (fun d => execTask d.task timeout)
      = (l.map (·.task)).map fun t => execTask t timeout := by
  induction l with
  | nil => rfl
  | cons x xs ih => simp only [List.map_cons, ih]

theorem stepGroup_dsp {α ε : Type} (o : Opts) (total : Nat) (T : Int)
    (batch : List (Task α ε)) (ts : List Int) (results : List (TaskResult α ε)) :
    (stepGroup o total T batch ts results).dsp = (dispatchPass o T batch 0 ts).2 := by
  simp [stepGroup]

theorem stepGroup_alive {α ε : Type} (o : Opts) (total : Nat) (T : Int)
    (batch : List (Task α ε)) (ts : List Int) (results : List (TaskResult α ε)) :
    (stepGroup o total T batch ts results).alive
      = ((dispatchPass o T batch 0 ts).2).filter fun d => !(o.sig d.resumeAt) := by
  simp [stepGroup]

theorem stepGroup_events {α ε : Type} (o : Opts) (total : Nat) (T : Int)
    (batch : List (Task α ε)) (ts : List Int) (results : List (TaskResult α ε)) :
    (stepGroup o total T batch ts results).events
      = (sortByKey (settleKey o.timeout) ((stepGroup o total T batch ts results).alive)).map
          fun d => (⟨min (results.length + d.idx + 1) total, total,
            results ++ [execTask d.task o.timeout]⟩ : ProgressInfo α ε) := by
  simp [stepGroup]

/-- If the signal never fires, every dispatched callback of a batch survives
its abort checkpoint. -/
theorem stepGroup_alive_of_never {α ε : Type} (o : Opts) (hsig : ∀ t, o.sig t = false)
    (total : Nat) (T : Int) (batch : List (Task α ε)) (ts : List Int)
    (results : List (TaskResult α ε)) :
    (stepGroup o total T batch ts results).alive = (stepGroup o total T batch ts results).dsp := by
  rw [stepGroup_alive, stepGroup_dsp]
  exact List.filter_eq_self.mpr fun d _ => by simp [hsig]

/-- Membership in a sorted list is membership in the original list. -/
theorem mem_insertByKey {α ε : Type} (κ : Disp α ε → Int × Nat) (d x : Disp α ε) :
    ∀ l : List (Disp α ε), x ∈ insertByKey κ d l → x = d ∨ x ∈ l := by
  intro l
  induction l with
  | nil => intro h; simpa [insertByKey] using h
  | cons y ys ih =>
    intro h
    simp only [insertByKey] at h
    split at h
    · rcases List.mem_cons.mp h with h1 | h1
      · exact Or.inl h1
      · exact Or.inr h1
    · rcases List.mem_cons.mp h with h1 | h1
      · exact Or.inr (h1 ▸ List.mem_cons_self y ys)
      · rcases ih h1 with h2 | h2
        · exact Or.inl h2
        · exact Or.inr (List.mem_cons_of_mem y h2)

theorem mem_sortByKey {α ε : Type} (κ : Disp α ε → Int × Nat) (x : Disp α ε) :
    ∀ l : List (Disp α ε), x ∈ sortByKey κ l → x ∈ l := by
  intro l
  induction l with
  | nil => intro h; simp [sortByKey] at h
  | cons y ys ih =>
    intro h
    simp only [sortByKey, List.foldr] at h
    rcases mem_insertByKey κ y x _ h with h1 | h1
    · exact h1 ▸ List.mem_cons_self y ys
    · exact List.mem_cons_of_mem y (ih h1)

/-- Shape of every per-task progress event of a batch: `done` is the clamped
batch-position count and the snapshot is the pre-batch accumulator extended
by that one result. -/
theorem stepGroup_events_shape {α ε : Type} (o : Opts) (total : Nat) (T : Int)
    (batch : List (Task α ε)) (ts : List Int) (results : List (TaskResult α ε)) :
    ∀ ev ∈ (stepGroup o total T batch ts results).events,
      ∃ j r, ev = (⟨min (results.length + j + 1) total, total, results ++ [r]⟩ :
        ProgressInfo α ε) := by
  intro ev hev
  rw [stepGroup_events] at hev
  rcases List.mem_map.mp hev with ⟨d, _, hd⟩
  exact ⟨d.idx, execTask d.task o.timeout, hd.symm⟩

/-- Characterisation of a `chunk` run when the signal never fires: the loop
terminates within its fuel (given `n ≥ 1`) and returns the settled outcomes
of all remaining tasks, in input order. -/
theorem chunkLoop_never_abort {α ε : Type} (o : Opts) (fns : List (Task α ε)) (n : Nat)
    (hsig : ∀ t, o.sig t = false) (hn : 1 ≤ n) :
    ∀ (fuel index : Nat) (T : Int) (ts : List Int) (results : List (TaskResult α ε))
      (trace : List (ProgressInfo α ε)) (dc sc : Nat), fns.length - index < fuel →
      ∃ log, chunkLoop o fns n fuel index T ts results trace dc sc
        = some (.ok (results ++ (fns.drop index).map fun t => execTask t o.timeout), log) := by
  intro fuel
  induction fuel with
  | zero => intro index T ts results trace dc sc h; omega
  | succ fuel ih =>
    intro index T ts results trace dc sc h
    by_cases hidx : index < fns.length
    · have halive := stepGroup_alive_of_never o hsig fns.length T ((fns.drop index).take n)
        ts results
      have hrec := ih (index + n)
        ((stepGroup o fns.length T ((fns.drop index).take n) ts results).nextT)
        ((stepGroup o fns.length T ((fns.drop index).take n) ts results).ts)
        (results ++ ((stepGroup o fns.length T ((fns.drop index).take n) ts results).dsp).map
          fun d => execTask d.task o.timeout)
        (trace
          ++ (stepGroup o fns.length T ((fns.drop index).take n) ts results).events
          ++ [⟨(results ++ ((stepGroup o fns.length T ((fns.drop index).take n) ts
                results).dsp).map fun d => execTask d.task o.timeout).length, fns.length,
              results ++ ((stepGroup o fns.length T ((fns.drop index).take n) ts
                results).dsp).map fun d => execTask d.task o.timeout⟩])
        (dc + ((stepGroup o fns.length T ((fns.drop index).take n) ts results).dsp).length)
        (sc + ((stepGroup o fns.length T ((fns.drop index).take n) ts results).alive).length)
        (by omega)
      rcases hrec with ⟨log, hlog⟩
      refine ⟨log, ?_⟩
      rw [halive] at hlog
      simp only [chunkLoop, if_pos hidx, hsig T, Bool.false_eq_true, if_false, halive]
      simp only [if_true]
      rw [hlog]
      have hmap : ((stepGroup o fns.length T ((fns.drop index).take n) ts results).dsp).map
          (fun d => execTask d.task o.timeout)
          = ((fns.drop index).take n).map fun t => execTask t o.timeout := by
        rw [stepGroup_dsp, map_execTask_comp, dispatchPass_map_task]
      have hsplit : (fns.drop index) = (fns.drop index).take n ++ fns.drop (index + n) := by
        have h2 : fns.drop (index + n) = (fns.drop index).drop n := by
          rw [List.drop_drop]
        rw [h2, List.take_append_drop]
      rw [hmap, List.append_assoc, ← List.map_append, ← hsplit]
    · refine ⟨⟨trace, ts, T, dc, sc⟩, ?_⟩
      simp only [chunkLoop, if_neg hidx]
      rw [List.drop_eq_nil_of_le (by omega)]
      simp

/-- Characterisation of a `q` run when the signal never fires: all tasks are
executed in order and their settled outcomes returned. -/
theorem qGo_never_abort {α ε : Type} (o : Opts) (hsig : ∀ t, o.sig t = false) (total : Nat) :
    ∀ (fns : List (Task α ε)) (now : Int) (ts : List Int) (results : List (TaskResult α ε))
      (trace : List (ProgressInfo α ε)),
      (qGo o total fns now ts results trace).1
        = .ok (results ++ fns.map fun t => execTask t o.timeout) := by
  intro fns
  induction fns with
  | nil => intro now ts results trace; simp [qGo]
  | cons fn rest ih =>
    intro now ts results trace
    simp only [qGo, hsig, Bool.false_eq_true, if_false]
    rw [ih]
    simp

/-- Every snapshot `q` passes to `onProgress` carries exactly `done` results:
the snapshot is built as `{done: results.length, results: [...results]}`. -/
theorem qGo_trace_len_eq_done {α ε : Type} (o : Opts) (total : Nat) :
    ∀ (fns : List (Task α ε)) (now : Int) (ts : List Int) (results : List (TaskResult α ε))
      (trace : List (ProgressInfo α ε)),
      (∀ ev ∈ trace, ev.results.length = ev.done) →
      ∀ ev ∈ (qGo o total fns now ts results trace).2.trace, ev.results.length = ev.done := by
  intro fns
  induction fns with
  | nil => intro now ts results trace hinv; simpa [qGo] using hinv
  | cons fn rest ih =>
    intro now ts results trace hinv
    simp only [qGo]
    split
    · simpa using hinv
    · split
      · simpa using hinv
      · refine ih _ _ _ _ fun ev hev => ?_
        rcases List.mem_append.mp hev with h | h
        · exact hinv ev h
        · rcases List.mem_singleton.mp h with rfl
          rfl

/-- Every snapshot `q` passes to `onProgress` has `done ≤ total` and reports
the run's total; the invariant threaded is that the tasks still to run plus
the results so far account for `total`. -/
theorem qGo_trace_done_le_total {α ε : Type} (o : Opts) (total : Nat) :
    ∀ (fns : List (Task α ε)) (now : Int) (ts : List Int) (results : List (TaskResult α ε))
      (trace : List (ProgressInfo α ε)),
      results.length + fns.length = total →
      (∀ ev ∈ trace, ev.done ≤ ev.total ∧ ev.total = total) →
      ∀ ev ∈ (qGo o total fns now ts results trace).2.trace,
        ev.done ≤ ev.total ∧ ev.total = total := by
  intro fns
  induction fns with
  | nil => intro now ts results trace _ hinv; simpa [qGo] using hinv
  | cons fn rest ih =>
    intro now ts results trace hlen hinv
    simp only [qGo]
    split
    · simpa using hinv
    · split
      · simpa using hinv
      · refine ih _ _ _ _ (by simp at hlen ⊢; omega) fun ev hev => ?_
        rcases List.mem_append.mp hev with h | h
        · exact hinv ev h
        · rcases List.mem_singleton.mp h with rfl
          constructor
          · simp only [List.length_append, List.length_cons] at hlen ⊢
            simp
            omega
          · rfl

/-- The `done` counts `q` reports are non-decreasing along the run. -/
theorem qGo_trace_chain {α ε : Type} (o : Opts) (total : Nat) :
    ∀ (fns : List (Task α ε)) (now : Int) (ts : List Int) (results : List (TaskResult α ε))
      (trace : List (ProgressInfo α ε)),
      trace.Chain' (fun a b => a.done ≤ b.done) →
      (∀ x ∈ trace.getLast?, x.done ≤ results.length) →
      (qGo o total fns now ts results trace).2.trace.Chain' fun a b => a.done ≤ b.done := by
  intro fns
  induction fns with
  | nil => intro now ts results trace hchain _; simpa [qGo] using hchain
  | cons fn rest ih =>
    intro now ts results trace hchain hlast
    simp only [qGo]
    split
    · simpa using hchain
    · split
      · simpa using hchain
      · refine ih _ _ _ _ ?_ ?_
        · rw [List.chain'_append]
          refine ⟨hchain, List.chain'_singleton _, fun x hx y hy => ?_⟩
          rcases List.mem_singleton.mp (List.mem_of_mem_head? hy) with rfl
          have := hlast x hx
          simp only [List.length_append, List.length_cons]
          omega
        · intro x hx
          rw [List.getLast?_concat] at hx
          rcases Option.mem_some_iff.mp hx with rfl
          exact le_refl _

theorem stepGroup_dsp_length {α ε : Type} (o : Opts) (total : Nat) (T : Int)
    (fns : List (Task α ε)) (index n : Nat) (ts : List Int)
    (results : List (TaskResult α ε)) :
    (stepGroup o total T ((fns.drop index).take n) ts results).dsp.length
      = min n (fns.length - index) := by
  rw [stepGroup_dsp, dispatchPass_length, List.length_take, List.length_drop]

/-- Combined shape invariant for every snapshot `chunk` passes to
`onProgress`: the snapshot never carries more results than `done`, `done`
never exceeds `total`, and `total` is the input length.  The threaded
invariant is that the accumulator holds exactly the tasks already processed. -/
theorem chunkLoop_trace_shape {α ε : Type} (o : Opts) (fns : List (Task α ε)) (n : Nat) :
    ∀ (fuel index : Nat) (T : Int) (ts : List Int) (results : List (TaskResult α ε))
      (trace : List (ProgressInfo α ε)) (dc sc : Nat),
      results.length = min index fns.length →
      (∀ ev ∈ trace, ev.results.length ≤ ev.done ∧ ev.done ≤ ev.total ∧ ev.total = fns.length) →
      ∀ out log, chunkLoop o fns n fuel index T ts results trace dc sc = some (out, log) →
      ∀ ev ∈ log.trace,
        ev.results.length ≤ ev.done ∧ ev.done ≤ ev.total ∧ ev.total = fns.length := by
  intro fuel
  induction fuel with
  | zero =>
    intro index T ts results trace dc sc _ _ out log h
    exact absurd h (by simp [chunkLoop])
  | succ fuel ih =>
    intro index T ts results trace dc sc hR hinv out log h
    simp only [chunkLoop] at h
    split at h
    case isTrue hidx =>
      split at h
      case isTrue hsT =>
        obtain ⟨rfl, rfl⟩ : _ ∧ _ = log := by simpa [Prod.ext_iff] using h
        exact hinv
      case isFalse hsT =>
        have hlen := stepGroup_dsp_length o fns.length T fns index n ts results
        have hev := stepGroup_events_shape o fns.length T ((fns.drop index).take n) ts results
        split at h
        case isTrue halive =>
          refine ih (index + n) _ _ _ _ _ _ ?_ ?_ out log h
          · simp only [List.length_append, List.length_map, hlen, hR]
            omega
          · intro ev hmem
            rcases List.mem_append.mp hmem with hmem1 | hmem2
            · rcases List.mem_append.mp hmem1 with hmem3 | hmem4
              · exact hinv ev hmem3
              · rcases hev ev hmem4 with ⟨j, r, rfl⟩
                refine ⟨?_, Nat.min_le_right _ _, rfl⟩
                simp only [List.length_append, List.length_cons, List.length_nil]
                have : results.length + 1 ≤ fns.length := by omega
                omega
            · rcases List.mem_singleton.mp hmem2 with rfl
              refine ⟨le_refl _, ?_, rfl⟩
              simp only [List.length_append, List.length_map, hlen, hR]
              omega
        case isFalse halive =>
          obtain ⟨rfl, rfl⟩ : _ ∧ _ = log := by simpa [Prod.ext_iff] using h
          intro ev hmem
          rcases List.mem_append.mp hmem with hmem1 | hmem2
          · exact hinv ev hmem1
          · rcases hev ev hmem2 with ⟨j, r, rfl⟩
            refine ⟨?_, Nat.min_le_right _ _, rfl⟩
            simp only [List.length_append, List.length_cons, List.length_nil]
            have : results.length + 1 ≤ fns.length := by omega
            omega
    case isFalse hidx =>
      obtain ⟨rfl, rfl⟩ : _ ∧ _ = log := by simpa [Prod.ext_iff] using h
      exact hinv

theorem dispatchPass_eq_dispIdx {α ε : Type} (o : Opts) (T : Int) (hr : o.rateLimit = 0) :
    ∀ (batch : List (Task α ε)) (i : Nat) (ts : List Int),
      dispatchPass o T batch i ts = (ts, dispIdx T batch i) := by
  intro batch
  induction batch with
  | nil => intro i ts; rfl
  | cons fn rest ih =>
    intro i ts
    simp only [dispatchPass, hr, if_pos, ih, dispIdx]

theorem dispIdx_resume {α ε : Type} (T : Int) :
    ∀ (batch : List (Task α ε)) (i : Nat), ∀ d ∈ dispIdx T batch i, d.resumeAt = T := by
  intro batch
  induction batch with
  | nil => intro i d hd; simp [dispIdx] at hd
  | cons fn rest ih =>
    intro i d hd
    rcases List.mem_cons.mp hd with h | h
    · subst h; rfl
    · exact ih _ d h

theorem dispIdx_idx_lt {α ε : Type} (T : Int) :
    ∀ (batch : List (Task α ε)) (i : Nat), ∀ d ∈ dispIdx T batch i,
      i ≤ d.idx ∧ d.idx < i + batch.length := by
  intro batch
  induction batch with
  | nil => intro i d hd; simp [dispIdx] at hd
  | cons fn rest ih =>
    intro i d hd
    rcases List.mem_cons.mp hd with h | h
    · subst h; simp
    · have := ih (i + 1) d h
      simp only [List.length_cons]
      omega

theorem settleDelta_mono {α ε : Type} (timeout : Nat) (t1 t2 : Task α ε)
    (h : t1.dur ≤ t2.dur) : settleDelta t1 timeout ≤ settleDelta t2 timeout := by
  simp only [settleDelta]
  split
  · exact h
  · omega

/-- When the tasks of a batch are dispatched at one tick and their durations
are non-decreasing, the settlement keys are non-decreasing along the batch. -/
theorem dispIdx_chain_settleKey {α ε : Type} (T : Int) (timeout : Nat) :
    ∀ (batch : List (Task α ε)) (i : Nat),
      batch.Chain' (fun a b => a.dur ≤ b.dur) →
      (dispIdx T batch i).Chain' fun a b =>
        keyLeB (settleKey timeout a) (settleKey timeout b) = true := by
  intro batch
  induction batch with
  | nil => intro i _; simp [dispIdx]
  | cons fn rest ih =>
    intro i hchain
    cases rest with
    | nil => simp [dispIdx]
    | cons fn2 rest2 =>
      rcases List.chain'_cons.mp hchain with ⟨hd, htail⟩
      refine List.chain'_cons.mpr ⟨?_, ih (i + 1) htail⟩
      have hdelta := settleDelta_mono timeout fn fn2 hd
      simp only [settleKey, keyLeB]
      rcases lt_or_eq_of_le (by exact_mod_cast add_le_add_left (Int.ofNat_le.mpr hdelta) T :
        T + (settleDelta fn timeout : Int) ≤ T + (settleDelta fn2 timeout : Int)) with hlt | heq
      · simp [hlt]
      · simp [heq]

theorem dispIdx_chain_idx {α ε : Type} (T : Int) :
    ∀ (batch : List (Task α ε)) (i : Nat),
      (dispIdx T batch i).Chain' fun a b => a.idx ≤ b.idx := by
  intro batch
  induction batch with
  | nil => intro i; simp [dispIdx]
  | cons fn rest ih =>
    intro i
    cases rest with
    | nil => simp [dispIdx]
    | cons fn2 rest2 =>
      refine List.chain'_cons.mpr ⟨?_, ih (i + 1)⟩
      simp [dispIdx]

theorem insertByKey_cons_of_le {α ε : Type} (κ : Disp α ε → Int × Nat) (d x : Disp α ε)
    (xs : List (Disp α ε)) (h : keyLeB (κ d) (κ x) = true) :
    insertByKey κ d (x :: xs) = d :: x :: xs := by
  simp [insertByKey, h]

/-- Insertion sort leaves an already-sorted list unchanged. -/
theorem sortByKey_eq_self {α ε : Type} (κ : Disp α ε → Int × Nat) :
    ∀ l : List (Disp α ε), l.Chain' (fun a b => keyLeB (κ a) (κ b) = true) →
      sortByKey κ l = l := by
  intro l
  induction l with
  | nil => intro _; rfl
  | cons x xs ih =>
    intro hchain
    have htail : sortByKey κ xs = xs := ih (List.Chain'.tail hchain)
    show insertByKey κ x (sortByKey κ xs) = x :: xs
    rw [htail]
    cases xs with
    | nil => rfl
    | cons y ys =>
      exact insertByKey_cons_of_le κ x y ys (List.chain'_cons.mp hchain).1

theorem mem_of_getLast_opt {γ : Type} {l : List γ} {x : γ} (h : x ∈ l.getLast?) : x ∈ l := by
  rcases List.mem_getLast?_eq_getLast h with ⟨hne, rfl⟩
  exact List.getLast_mem hne

theorem dispIdx_length {α ε : Type} (T : Int) :
    ∀ (batch : List (Task α ε)) (i : Nat), (dispIdx T batch i).length = batch.length := by
  intro batch
  induction batch with
  | nil => intro i; rfl
  | cons fn rest ih => intro i; simp [dispIdx, ih]

theorem stepGroup_alive_no_rl {α ε : Type} (o : Opts) (total : Nat) (T : Int)
    (batch : List (Task α ε)) (ts : List Int) (results : List (TaskResult α ε))
    (hr : o.rateLimit = 0) (hsT : o.sig T = false) :
    (stepGroup o total T batch ts results).alive = dispIdx T batch 0 := by
  rw [stepGroup_alive, dispatchPass_eq_dispIdx o T hr]
  refine List.filter_eq_self.mpr fun d hd => ?_
  rw [dispIdx_resume T batch 0 d hd, hsT]
  rfl

theorem stepGroup_dsp_no_rl {α ε : Type} (o : Opts) (total : Nat) (T : Int)
    (batch : List (Task α ε)) (ts : List Int) (results : List (TaskResult α ε))
    (hr : o.rateLimit = 0) :
    (stepGroup o total T batch ts results).dsp = dispIdx T batch 0 := by
  rw [stepGroup_dsp, dispatchPass_eq_dispIdx o T hr]

theorem stepGroup_events_no_rl {α ε : Type} (o : Opts) (total : Nat) (T : Int)
    (batch : List (Task α ε)) (ts : List Int) (results : List (TaskResult α ε))
    (hr : o.rateLimit = 0) (hsT : o.sig T = false)
    (hchain : batch.Chain' fun a b => a.dur ≤ b.dur) :
    (stepGroup o total T batch ts results).events
      = (dispIdx T batch 0).map fun d =>
          (⟨min (results.length + d.idx + 1) total, total,
            results ++ [execTask d.task o.timeout]⟩ : ProgressInfo α ε) := by
  rw [stepGroup_events, stepGroup_alive_no_rl o total T batch ts results hr hsT,
    sortByKey_eq_self _ _ (dispIdx_chain_settleKey T o.timeout batch 0 hchain)]

/-- With no rate limit and per-batch non-decreasing durations, the tasks of
each batch settle in index order, and the `done` counts `chunk` reports are
non-decreasing along the run (any signal). -/
theorem chunkLoop_trace_chain {α ε : Type} (o : Opts) (fns : List (Task α ε)) (n : Nat)
    (hr : o.rateLimit = 0) (hdur : fns.Pairwise fun a b => a.dur ≤ b.dur) :
    ∀ (fuel index : Nat) (T : Int) (ts : List Int) (results : List (TaskResult α ε))
      (trace : List (ProgressInfo α ε)) (dc sc : Nat),
      results.length = min index fns.length →
      trace.Chain' (fun a b => a.done ≤ b.done) →
      (∀ x ∈ trace.getLast?, x.done ≤ results.length) →
      ∀ out log, chunkLoop o fns n fuel index T ts results trace dc sc = some (out, log) →
      log.trace.Chain' fun a b => a.done ≤ b.done := by
  intro fuel
  induction fuel with
  | zero =>
    intro index T ts results trace dc sc _ _ _ out log h
    exact absurd h (by simp [chunkLoop])
  | succ fuel ih =>
    intro index T ts results trace dc sc hR hchain hlast out log h
    simp only [chunkLoop] at h
    split at h
    case isTrue hidx =>
      split at h
      case isTrue hsT =>
        obtain ⟨rfl, rfl⟩ : _ ∧ _ = log := by simpa [Prod.ext_iff] using h
        exact hchain
      case isFalse hsT =>
        have hsT' : o.sig T = false := by
          revert hsT
          cases o.sig T <;> simp
        have hbatchchain : ((fns.drop index).take n).Chain' fun a b => a.dur ≤ b.dur :=
          ((hdur.sublist (List.drop_sublist index fns)).sublist
            (List.take_sublist n (fns.drop index))).chain'
        have hdspq := stepGroup_dsp_no_rl o fns.length T ((fns.drop index).take n) ts results hr
        have haliveq := stepGroup_alive_no_rl o fns.length T ((fns.drop index).take n) ts
          results hr hsT'
        have heventsq := stepGroup_events_no_rl o fns.length T ((fns.drop index).take n) ts
          results hr hsT' hbatchchain
        have hdlen : (stepGroup o fns.length T ((fns.drop index).take n) ts results).dsp.length
            = min n (fns.length - index) :=
          stepGroup_dsp_length o fns.length T fns index n ts results
        have hRlen : results.length = index := by omega
        have hRle : results.length ≤ fns.length := by omega
        -- shape facts about the appended block
        have hblock : ∀ ev ∈ (stepGroup o fns.length T ((fns.drop index).take n) ts
            results).events, results.length ≤ ev.done ∧
            ev.done ≤ results.length
              + (stepGroup o fns.length T ((fns.drop index).take n) ts results).dsp.length := by
          intro ev hev
          rw [heventsq] at hev
          rcases List.mem_map.mp hev with ⟨d, hd, rfl⟩
          have hidxlt := dispIdx_idx_lt T ((fns.drop index).take n) 0 d hd
          rw [hdspq, dispIdx_length]
          constructor
          · simp only []
            omega
          · simp only []
            omega
        have hblockchain : ((stepGroup o fns.length T ((fns.drop index).take n) ts
            results).events).Chain' fun a b => a.done ≤ b.done := by
          rw [heventsq]
          rw [List.chain'_map]
          refine (dispIdx_chain_idx T ((fns.drop index).take n) 0).imp fun a b hab => ?_
          simp only []
          omega
        split at h
        case isTrue halive =>
          refine ih (index + n) _ _ _ _ _ _ ?_ ?_ ?_ out log h
          · simp only [List.length_append, List.length_map, hdlen, hR]
            omega
          · refine List.chain'_append.mpr
              ⟨List.chain'_append.mpr ⟨hchain, hblockchain, ?_⟩, List.chain'_singleton _, ?_⟩
            · intro x hx y hy
              have hxle := hlast x hx
              have hb := hblock y (List.mem_of_mem_head? hy)
              omega
            · intro x hx y hy
              rcases List.mem_singleton.mp (List.mem_of_mem_head? hy) with rfl
              simp only [List.length_append, List.length_map]
              rcases hevents : (stepGroup o fns.length T ((fns.drop index).take n) ts
                  results).events with _ | ⟨e, es⟩
              · rw [hevents, List.append_nil] at hx
                have := hlast x hx
                omega
              · rw [hevents, List.getLast?_append_of_ne_nil trace (by simp)] at hx
                have hb := hblock x (hevents ▸ mem_of_getLast_opt hx)
                omega
          · intro x hx
            rw [List.getLast?_concat] at hx
            rcases Option.mem_some_iff.mp hx with rfl
            exact le_refl _
        case isFalse halive =>
          exact absurd (by rw [haliveq, hdspq]) halive
    case isFalse hidx =>
      obtain ⟨rfl, rfl⟩ : _ ∧ _ = log := by simpa [Prod.ext_iff] using h
      exact hchain

/-- With no rate limit configured, every dispatched task of a `chunk` run
runs to settlement: the instrumentation counters stay equal. -/
theorem chunkLoop_counters_no_rl {α ε : Type} (o : Opts) (fns : List (Task α ε)) (n : Nat)
    (hr : o.rateLimit = 0) :
    ∀ (fuel index : Nat) (T : Int) (ts : List Int) (results : List (TaskResult α ε))
      (trace : List (ProgressInfo α ε)) (dc sc : Nat), dc = sc →
      ∀ out log, chunkLoop o fns n fuel index T ts results trace dc sc = some (out, log) →
      log.dispatched = log.settled := by
  intro fuel
  induction fuel with
  | zero =>
    intro index T ts results trace dc sc _ out log h
    exact absurd h (by simp [chunkLoop])
  | succ fuel ih =>
    intro index T ts results trace dc sc hdc out log h
    simp only [chunkLoop] at h
    split at h
    case isTrue hidx =>
      split at h
      case isTrue hsT =>
        obtain ⟨rfl, rfl⟩ : _ ∧ _ = log := by simpa [Prod.ext_iff] using h
        exact hdc
      case isFalse hsT =>
        have hsT' : o.sig T = false := by
          revert hsT
          cases o.sig T <;> simp
        have heq : (stepGroup o fns.length T ((fns.drop index).take n) ts results).alive
            = (stepGroup o fns.length T ((fns.drop index).take n) ts results).dsp := by
          rw [stepGroup_alive_no_rl o fns.length T _ ts results hr hsT',
            stepGroup_dsp_no_rl o fns.length T _ ts results hr]
        split at h
        case isTrue halive =>
          exact ih _ _ _ _ _ _ _ (by rw [hdc, heq]) out log h
        case isFalse halive =>
          exact absurd (by rw [heq]) halive
    case isFalse hidx =>
      obtain ⟨rfl, rfl⟩ : _ ∧ _ = log := by simpa [Prod.ext_iff] using h
      exact hdc

/-- With `n = 0` and a non-empty task list, the iterative loop never advances
its index: no amount of fuel suffices. -/
theorem chunkLoop_n_zero_diverges {α ε : Type} (o : Opts) (fns : List (Task α ε))
    (hne : fns ≠ []) (T : Int) (hsT : o.sig T = false) :
    ∀ (fuel : Nat) (ts : List Int) (results : List (TaskResult α ε))
      (trace : List (ProgressInfo α ε)) (dc sc : Nat),
      chunkLoop o fns 0 fuel 0 T ts results trace dc sc = none := by
  intro fuel
  induction fuel with
  | zero => intro ts results trace dc sc; rfl
  | succ fuel ih =>
    intro ts results trace dc sc
    have hlen : 0 < fns.length := List.length_pos.mpr hne
    have hstep : stepGroup o fns.length T ((fns.drop 0).take 0) ts results
        = ⟨ts, [], [], [], T⟩ := rfl
    simp only [chunkLoop, if_pos hlen, hsT, Bool.false_eq_true, if_false, hstep]
    exact ih _ _ _ _ _

/-- With `n = 0` and a non-empty task list, the slice-and-recurse variant
recurses on the whole list forever: no amount of fuel suffices. -/
theorem chunkRecFuel_n_zero_diverges {α ε : Type} (fn : Task α ε) (rest : List (Task α ε)) :
    ∀ fuel : Nat, chunkRecFuel 0 fuel (fn :: rest) = none := by
  intro fuel
  induction fuel with
  | zero => rfl
  | succ fuel ih =>
    simp only [chunkRecFuel, List.take_zero, List.drop_zero]
    have hraw : promiseAllRaw ([] : List (Task α ε)) = .ok [] := rfl
    rw [hraw, ih]

theorem qRate_ts_bound (o : Opts) (now : Int) (ts : List Int)
    (h : ts.length ≤ 2 * o.rateLimit) : (qRate o now ts).2.length ≤ 2 * o.rateLimit := by
  simp only [qRate]
  split
  · exact h
  · calc (recordSeq ts (now + getRateLimitDelay ts o.rateLimit now) o.rateLimit).length
        ≤ o.rateLimit := recordSeq_length_le _ _ _
      _ ≤ 2 * o.rateLimit := by omega

theorem qGo_ts_bound {α ε : Type} (o : Opts) (total : Nat) :
    ∀ (fns : List (Task α ε)) (now : Int) (ts : List Int) (results : List (TaskResult α ε))
      (trace : List (ProgressInfo α ε)), ts.length ≤ 2 * o.rateLimit →
      (qGo o total fns now ts results trace).2.timestamps.length ≤ 2 * o.rateLimit := by
  intro fns
  induction fns with
  | nil => intro now ts results trace h; exact h
  | cons fn rest ih =>
    intro now ts results trace h
    simp only [qGo]
    split
    · exact h
    · split
      · exact qRate_ts_bound o now ts h
      · exact ih _ _ _ _ (qRate_ts_bound o now ts h)

theorem dispatchPass_ts_bound {α ε : Type} (o : Opts) (T : Int) :
    ∀ (batch : List (Task α ε)) (i : Nat) (ts : List Int), ts.length ≤ 2 * o.rateLimit →
      (dispatchPass o T batch i ts).1.length ≤ 2 * o.rateLimit := by
  intro batch
  induction batch with
  | nil => intro i ts h; exact h
  | cons fn rest ih =>
    intro i ts h
    simp only [dispatchPass]
    split
    · exact ih _ _ h
    · split
      · exact ih _ _ h
      · exact ih _ _ (recordBatch_length_le ts T o.rateLimit)

theorem resumePass_ts_bound {α ε : Type} (r : Nat) :
    ∀ (sorted : List (Disp α ε)) (ts : List Int), ts.length ≤ 2 * r →
      (resumePass r sorted ts).length ≤ 2 * r := by
  intro sorted
  induction sorted with
  | nil => intro ts h; exact h
  | cons d rest ih =>
    intro ts h
    exact ih _ (recordBatch_length_le ts d.resumeAt r)

theorem stepGroup_ts_bound {α ε : Type} (o : Opts) (total : Nat) (T : Int)
    (batch : List (Task α ε)) (ts : List Int) (results : List (TaskResult α ε))
    (h : ts.length ≤ 2 * o.rateLimit) :
    (stepGroup o total T batch ts results).ts.length ≤ 2 * o.rateLimit := by
  simp only [stepGroup]
  exact resumePass_ts_bound o.rateLimit _ _ (dispatchPass_ts_bound o T batch 0 ts h)

/-- A `chunk` run never grows the rate-limiter state beyond twice the
configured limit. -/
theorem chunkLoop_ts_bound {α ε : Type} (o : Opts) (fns : List (Task α ε)) (n : Nat) :
    ∀ (fuel index : Nat) (T : Int) (ts : List Int) (results : List (TaskResult α ε))
      (trace : List (ProgressInfo α ε)) (dc sc : Nat), ts.length ≤ 2 * o.rateLimit →
      ∀ out log, chunkLoop o fns n fuel index T ts results trace dc sc = some (out, log) →
      log.timestamps.length ≤ 2 * o.rateLimit := by
  intro fuel
  induction fuel with
  | zero =>
    intro index T ts results trace dc sc _ out log h
    exact absurd h (by simp [chunkLoop])
  | succ fuel ih =>
    intro index T ts results trace dc sc hts out log h
    simp only [chunkLoop] at h
    split at h
    case isTrue hidx =>
      split at h
      case isTrue hsT =>
        obtain ⟨rfl, rfl⟩ : _ ∧ _ = log := by simpa [Prod.ext_iff] using h
        exact hts
      case isFalse hsT =>
        split at h
        case isTrue halive =>
          exact ih _ _ _ _ _ _ _ (stepGroup_ts_bound o fns.length T _ ts results hts) out log h
        case isFalse halive =>
          obtain ⟨rfl, rfl⟩ : _ ∧ _ = log := by simpa [Prod.ext_iff] using h
          exact stepGroup_ts_bound o fns.length T _ ts results hts
    case isFalse hidx =>
      obtain ⟨rfl, rfl⟩ : _ ∧ _ = log := by simpa [Prod.ext_iff] using h
      exact hts

theorem foldl_pickEarlier_some {ε : Type} :
    ∀ (l : List ((Nat × Nat) × JsError ε)) (y : (Nat × Nat) × JsError ε),
      ∃ z, l.foldl pickEarlier (some y) = some z := by
  intro l
  induction l with
  | nil => intro y; exact ⟨y, rfl⟩
  | cons x xs ih =>
    intro y
    show ∃ z, xs.foldl pickEarlier (pickEarlier (some y) x) = some z
    simp only [pickEarlier]
    split
    · exact ih _
    · exact ih _

theorem firstRejection_none {α ε : Type} (ts : List (Task α ε))
    (h : firstRejection ts = none) : rejectionsFrom ts 0 = [] := by
  rcases hl : rejectionsFrom ts 0 with _ | ⟨x, xs⟩
  · rfl
  · exfalso
    rw [firstRejection, hl] at h
    rcases foldl_pickEarlier_some xs x with ⟨z, hz⟩
    have : (x :: xs).foldl pickEarlier none = some z := hz
    rw [this] at h
    simp at h

theorem rejectionsFrom_nil_all_ok {α ε : Type} :
    ∀ (ts : List (Task α ε)) (i : Nat), rejectionsFrom ts i = [] →
      ∀ t ∈ ts, ∃ v, t.run = .ok v := by
  intro ts
  induction ts with
  | nil => intro i _ t ht; simp at ht
  | cons t0 rest ih =>
    intro i h t ht
    revert h
    simp only [rejectionsFrom]
    rcases hrun : t0.run with e | v
    · intro h; exact absurd h (by simp)
    · intro h
      rcases List.mem_cons.mp ht with rfl | hmem
      · exact ⟨v, hrun⟩
      · exact ih (i + 1) h t hmem

theorem map_execTask_of_all_ok {α ε : Type} :
    ∀ ts : List (Task α ε), (∀ t ∈ ts, ∃ v, t.run = .ok v) →
      ts.map (fun t => execTask t 0)
        = (ts.filterMap fun t => t.run.toOption).map TaskResult.fulfilled := by
  intro ts
  induction ts with
  | nil => intro _; rfl
  | cons t0 rest ih =>
    intro h
    rcases h t0 (List.mem_cons_self t0 rest) with ⟨v, hv⟩
    have htail := ih fun t ht => h t (List.mem_cons_of_mem t0 ht)
    have hhead : execTask t0 0 = TaskResult.fulfilled v := by
      rw [execTask_zero, hv]
    have hopt : t0.run.toOption = some v := by
      rw [hv]
      rfl
    simp only [List.map_cons, List.filterMap_cons, hopt, hhead]
    exact congrArg (List.cons (TaskResult.fulfilled v)) htail

/-- When the raw `Promise.all` of the recursive variant succeeds, the settled
execution of the same tasks yields exactly those values wrapped `fulfilled`. -/
theorem promiseAllRaw_ok {α ε : Type} (ts : List (Task α ε)) (vs : List α)
    (h : promiseAllRaw ts = .ok vs) :
    ts.map (fun t => execTask t 0) = vs.map TaskResult.fulfilled := by
  rcases hfr : firstRejection ts with _ | e
  · rw [promiseAllRaw, hfr] at h
    have hvs : ts.filterMap (fun t => t.run.toOption) = vs := by
      simpa using h
    rw [← hvs]
    exact map_execTask_of_all_ok ts
      (rejectionsFrom_nil_all_ok ts 0 (firstRejection_none ts hfr))
  · rw [promiseAllRaw, hfr] at h
    simp at h

/-- When the recursive variant completes with a value list, the settled
execution of the whole task list yields those values wrapped `fulfilled`. -/
theorem chunkRecFuel_ok {α ε : Type} (n : Nat) :
    ∀ (fuel : Nat) (fns : List (Task α ε)) (vs : List α),
      chunkRecFuel n fuel fns = some (.ok vs) →
      fns.map (fun t => execTask t 0) = vs.map TaskResult.fulfilled := by
  intro fuel
  induction fuel with
  | zero => intro fns vs h; exact absurd h (by simp [chunkRecFuel])
  | succ fuel ih =>
    intro fns vs h
    rcases fns with _ | ⟨fn, rest⟩
    · have : vs = [] := by
        simpa [chunkRecFuel] using h
      subst this
      rfl
    · simp only [chunkRecFuel] at h
      rcases hp : promiseAllRaw ((fn :: rest).take n) with e | vs1
      · rw [hp] at h; simp at h
      · rw [hp] at h
        rcases hrec : chunkRecFuel n fuel ((fn :: rest).drop n) with _ | r
        · rw [hrec] at h; simp at h
        · rw [hrec] at h
          rcases r with e | ws
          · simp at h
          · have hvs : vs1 ++ ws = vs := by simpa using h
            have h1 := promiseAllRaw_ok ((fn :: rest).take n) vs1 hp
            have h2 := ih ((fn :: rest).drop n) ws hrec
            calc (fn :: rest).map (fun t => execTask t 0)
                = ((fn :: rest).take n ++ (fn :: rest).drop n).map (fun t => execTask t 0) := by
                  rw [List.take_append_drop]
              _ = vs1.map TaskResult.fulfilled ++ ws.map TaskResult.fulfilled := by
                  rw [List.map_append, h1, h2]
              _ = vs.map TaskResult.fulfilled := by rw [← List.map_append, hvs]

theorem map_execTask_zero_eq_of_runs {α ε : Type} :
    ∀ (l l' : List (Task α ε)), l.map Task.run = l'.map Task.run →
      l.map (fun t => execTask t 0) = l'.map fun t => execTask t 0 := by
  intro l
  induction l with
  | nil =>
    intro l' h
    cases l' with
    | nil => rfl
    | cons t' rest' => simp at h
  | cons t rest ih =>
    intro l' h
    cases l' with
    | nil => simp at h
    | cons t' rest' =>
      simp only [List.map_cons, List.cons.injEq] at h
      rcases h with ⟨h1, h2⟩
      have hh : execTask t 0 = execTask t' 0 := by
        rw [execTask_zero, execTask_zero, h1]
      rw [List.map_cons, List.map_cons, hh, ih rest' h2]

/-! ### Claim theorems -/

/-- C1: For every finite task list and every batch size `n ≥ 1`, with no
cancellation, timeout, or rate limit configured, both `q` (sequential) and
`chunk` (batched) return a result sequence of the input's length whose `i`-th
entry is the settled outcome of the `i`-th input task, independent of the
order in which tasks actually complete (the durations, which determine the
completion order, do not affect the returned results). -/
theorem claim_c1 {α ε : Type} (fns : List (Task α ε)) (n : Nat) (hn : 1 ≤ n) (t0 : Int) :
    (qRun fns ⟨0, 0, fun _ => false⟩ t0).1 = .ok (fns.map fun t => execTask t 0) ∧
    (chunkTimed fns n ⟨0, 0, fun _ => false⟩ t0).map (fun p => p.1)
      = some (.ok (fns.map fun t => execTask t 0)) ∧
    (fns.map fun t => execTask t 0).length = fns.length ∧
    (∀ i : Nat, (fns.map fun t => execTask t 0)[i]? = fns[i]?.map fun t => execTask t 0) ∧
    ∀ fns' : List (Task α ε), fns.map Task.run = fns'.map Task.run →
      (chunkTimed fns n ⟨0, 0, fun _ => false⟩ t0).map (fun p => p.1)
        = (chunkTimed fns' n ⟨0, 0, fun _ => false⟩ t0).map fun p => p.1 := by
  have hsig : ∀ t : Int, (⟨0, 0, fun _ => false⟩ : Opts).sig t = false := fun _ => rfl
  have hq := qGo_never_abort (α := α) (ε := ε) ⟨0, 0, fun _ => false⟩ hsig fns.length fns t0
    [] [] []
  have hchunk : ∀ gns : List (Task α ε),
      (chunkTimed gns n ⟨0, 0, fun _ => false⟩ t0).map (fun p => p.1)
        = some (.ok (gns.map fun t => execTask t 0)) := by
    intro gns
    rcases chunkLoop_never_abort ⟨0, 0, fun _ => false⟩ gns n hsig hn (gns.length + 1) 0 t0
      [] [] [] 0 0 (by omega) with ⟨log, hlog⟩
    show (chunkLoop _ gns n (gns.length + 1) 0 t0 [] [] [] 0 0).map (fun p => p.1) = _
    rw [hlog]
    simp
  refine ⟨by simpa using hq, hchunk fns, List.length_map fns _, ?_, ?_⟩
  · intro i
    exact List.getElem?_map _ fns i
  · intro fns' hruns
    rw [hchunk fns, hchunk fns', map_execTask_zero_eq_of_runs fns fns' hruns]

theorem claim_c1_witness :
    ((1 : Nat) ≤ 1) ∧
    (chunkTimed [(⟨.ok 1, 0⟩ : Task Nat Unit), ⟨.ok 2, 7⟩] 1 ⟨0, 0, fun _ => false⟩ 0).map
        (fun p => p.1)
      = some (.ok [TaskResult.fulfilled 1, TaskResult.fulfilled 2]) := by
  refine ⟨by decide, ?_⟩
  have h := (claim_c1 [(⟨.ok 1, 0⟩ : Task Nat Unit), ⟨.ok 2, 7⟩] 1 (by decide) 0).2.1
  exact h.trans (by rfl)

/-- C2: For every task, any failure of that task — its own thrown error, a
per-task `TimeoutError`, or an `AbortError` raised inside the task itself —
is captured as a rejected entry at that task's index in the result sequence,
and the run as a whole still completes successfully (does not reject) absent
cancellation, for both `q` and `chunk`. -/
theorem claim_c2 {α ε : Type} (fns : List (Task α ε)) (n : Nat) (o : Opts) (t0 : Int)
    (i : Nat) (task : Task α ε) (e : JsError ε)
    (hn : 1 ≤ n) (hsig : ∀ t, o.sig t = false)
    (hi : fns[i]? = some task) (hfail : withTimeout task o.timeout = .error e) :
    (qRun fns o t0).1 = .ok (fns.map fun t => execTask t o.timeout) ∧
    (chunkTimed fns n o t0).map (fun p => p.1)
      = some (.ok (fns.map fun t => execTask t o.timeout)) ∧
    (fns.map fun t => execTask t o.timeout)[i]? = some (.rejected e) := by
  have hq := qGo_never_abort o hsig fns.length fns t0 [] [] []
  rcases chunkLoop_never_abort o fns n hsig hn (fns.length + 1) 0 t0 [] [] [] 0 0 (by omega)
    with ⟨log, hlog⟩
  refine ⟨by simpa using hq, ?_, ?_⟩
  · show (chunkLoop o fns n (fns.length + 1) 0 t0 [] [] [] 0 0).map (fun p => p.1) = _
    rw [hlog]
    rfl
  · rw [List.getElem?_map, hi]
    have hexec : execTask task o.timeout = .rejected e := by
      simp [execTask, hfail]
    simp [hexec]

theorem claim_c2_witness :
    ((1 : Nat) ≤ 1) ∧
    (chunkTimed [(⟨.error (.userError 9), 4⟩ : Task Nat Nat)] 1 ⟨0, 0, fun _ => false⟩ 0).map
        (fun p => p.1)
      = some (.ok [TaskResult.rejected (.userError 9)]) ∧
    ([(⟨.error (.userError 9), 4⟩ : Task Nat Nat)].map fun t => execTask t 0)[0]?
      = some (TaskResult.rejected (.userError 9)) := by
  have h := claim_c2 [(⟨.error (.userError 9), 4⟩ : Task Nat Nat)] 1 ⟨0, 0, fun _ => false⟩ 0
    0 ⟨.error (.userError 9), 4⟩ (.userError 9) (by decide) (fun _ => rfl) rfl rfl
  exact ⟨by decide, h.2.1, h.2.2⟩

/-- C3 counterexample: with two tasks in one batch of `2` where the first
task settles after the second, `chunk` fires its per-task progress events in
settlement order carrying index-based counts, so the emitted `done` values
are `2, 1, 2` — not monotonically non-decreasing. -/
theorem claim_c3_counterexample :
    (chunkTimed [(⟨.ok 1, 5⟩ : Task Nat Unit), ⟨.ok 2, 0⟩] 2 ⟨0, 0, fun _ => false⟩ 0).map
        (fun p => p.2.trace.map (·.done)) = some [2, 1, 2] ∧
    ¬ List.Chain' (fun a b : Nat => a ≤ b) [2, 1, 2] :=
  ⟨rfl, fun h => by
    rcases List.chain'_cons.mp h with ⟨h21, _⟩
    omega⟩

/-- C3 amended: across a single run, `done` never exceeds `total` for both
`q` and `chunk` (any options, any signal); `done` is monotonically
non-decreasing for `q` always, and for `chunk` whenever no rate limit is
configured and each batch's tasks settle in index order (e.g. non-decreasing
durations); in general `chunk`'s intra-batch `done` values follow settlement
order and may decrease. -/
theorem claim_c3_amended {α ε : Type} (fns : List (Task α ε)) (n : Nat) (o : Opts) (t0 : Int)
    (out : Except (JsError ε) (List (TaskResult α ε))) (log : RunLog α ε)
    (hrun : chunkTimed fns n o t0 = some (out, log)) :
    (∀ ev ∈ (qRun fns o t0).2.trace, ev.done ≤ ev.total) ∧
    ((qRun fns o t0).2.trace.Chain' fun a b => a.done ≤ b.done) ∧
    (∀ ev ∈ log.trace, ev.done ≤ ev.total) ∧
    (o.rateLimit = 0 → (fns.Pairwise fun a b => a.dur ≤ b.dur) →
      log.trace.Chain' fun a b => a.done ≤ b.done) := by
  refine ⟨?_, ?_, ?_, ?_⟩
  · intro ev hev
    exact (qGo_trace_done_le_total o fns.length fns t0 [] [] [] (by simp) (by simp) ev hev).1
  · exact qGo_trace_chain o fns.length fns t0 [] [] [] List.chain'_nil (by simp)
  · intro ev hev
    exact ((chunkLoop_trace_shape o fns n (fns.length + 1) 0 t0 [] [] [] 0 0 (by simp)
      (by simp) out log hrun) ev hev).2.1
  · intro hr hdur
    exact chunkLoop_trace_chain o fns n hr hdur (fns.length + 1) 0 t0 [] [] [] 0 0 (by simp)
      List.chain'_nil (by simp) out log hrun

theorem claim_c3_amended_witness :
    List.Chain' (fun a b : ProgressInfo Nat Unit => a.done ≤ b.done)
      [⟨1, 2, [.fulfilled 1]⟩, ⟨2, 2, [.fulfilled 2]⟩,
        ⟨2, 2, [.fulfilled 1, .fulfilled 2]⟩] := by
  have h := claim_c3_amended [(⟨.ok 1, 0⟩ : Task Nat Unit), ⟨.ok 2, 0⟩] 2
    ⟨0, 0, fun _ => false⟩ 0 (.ok [.fulfilled 1, .fulfilled 2])
    ⟨[⟨1, 2, [.fulfilled 1]⟩, ⟨2, 2, [.fulfilled 2]⟩,
      ⟨2, 2, [.fulfilled 1, .fulfilled 2]⟩], [], 0, 2, 2⟩ rfl
  exact h.2.2.2 rfl (by decide)

/-- C4 counterexample: in the same run, the second intra-batch snapshot has
`done = 2` but carries only one result (`[...results, result]` skips the
other still-pending members of the batch), so the snapshot's `results` length
does not equal `done`. -/
theorem claim_c4_counterexample :
    (chunkTimed [(⟨.ok 1, 0⟩ : Task Nat Unit), ⟨.ok 2, 0⟩] 2 ⟨0, 0, fun _ => false⟩ 0).map
        (fun p => p.2.trace.map fun ev => (ev.done, ev.results.length))
      = some [(1, 1), (2, 1), (2, 2)] ∧
    ¬ ∀ p ∈ [((1 : Nat), (1 : Nat)), (2, 1), (2, 2)], p.2 = p.1 :=
  ⟨rfl, by decide⟩

/-- C4 amended: in every snapshot `q` passes to `onProgress` the `results`
length equals `done`; in `chunk`'s snapshots the `results` length never
exceeds `done` (with equality at batch boundaries), but an intra-batch
snapshot carries only the prior results plus the one task that just settled
and so may be shorter than its `done` count. -/
theorem claim_c4_amended {α ε : Type} (fns : List (Task α ε)) (n : Nat) (o : Opts) (t0 : Int)
    (out : Except (JsError ε) (List (TaskResult α ε))) (log : RunLog α ε)
    (hrun : chunkTimed fns n o t0 = some (out, log)) :
    (∀ ev ∈ (qRun fns o t0).2.trace, ev.results.length = ev.done) ∧
    ∀ ev ∈ log.trace, ev.results.length ≤ ev.done := by
  constructor
  · exact qGo_trace_len_eq_done o fns.length fns t0 [] [] [] (by simp)
  · intro ev hev
    exact ((chunkLoop_trace_shape o fns n (fns.length + 1) 0 t0 [] [] [] 0 0 (by simp)
      (by simp) out log hrun) ev hev).1

theorem claim_c4_amended_witness :
    (⟨2, 2, [TaskResult.fulfilled 1, TaskResult.fulfilled 2]⟩ :
        ProgressInfo Nat Unit).results.length
      ≤ (⟨2, 2, [TaskResult.fulfilled 1, TaskResult.fulfilled 2]⟩ :
        ProgressInfo Nat Unit).done := by
  have h := (claim_c4_amended [(⟨.ok 1, 0⟩ : Task Nat Unit), ⟨.ok 2, 0⟩] 2
    ⟨0, 0, fun _ => false⟩ 0 (.ok [.fulfilled 1, .fulfilled 2])
    ⟨[⟨1, 2, [.fulfilled 1]⟩, ⟨2, 2, [.fulfilled 2]⟩,
      ⟨2, 2, [.fulfilled 1, .fulfilled 2]⟩], [], 0, 2, 2⟩ rfl).2
  exact h _ (by decide)

/-- C5 counterexample: with `rateLimit = 1` and a batch of two tasks, the
second task sleeps off a positive rate-limit delay and then hits the per-task
abort checkpoint of line 165; a token set during that sleep (here at
`t = 500`, after the group started dispatching at `t = 0` with the signal
still clear) makes the whole run reject mid-group: 2 tasks were dispatched
but only 1 ran to settlement. -/
theorem claim_c5_counterexample :
    (chunkTimed [(⟨.ok 1, 2000⟩ : Task Nat Unit), ⟨.ok 2, 0⟩] 2
        ⟨0, 1, fun t => decide (500 ≤ t)⟩ 0).map
        (fun p => (p.1, p.2.dispatched, p.2.settled))
      = some (.error .abortError, 2, 1) ∧
    (fun t : Int => decide (500 ≤ t)) 0 = false :=
  ⟨rfl, rfl⟩

/-- C5 amended: `chunk` checks cancellation both before a group starts
dispatching and per task after its rate-limit sleep (line 165), so with a
rate limit a group can be interrupted mid-flight; with no rate limit
configured those per-task checkpoints coincide with the group-start check,
cancellation is effectively observed only between groups, and every
dispatched task runs to settlement. -/
theorem claim_c5_amended {α ε : Type} (fns : List (Task α ε)) (n : Nat) (o : Opts) (t0 : Int)
    (out : Except (JsError ε) (List (TaskResult α ε))) (log : RunLog α ε)
    (hr : o.rateLimit = 0) (hrun : chunkTimed fns n o t0 = some (out, log)) :
    log.dispatched = log.settled :=
  chunkLoop_counters_no_rl o fns n hr (fns.length + 1) 0 t0 [] [] [] 0 0 rfl out log hrun

theorem claim_c5_amended_witness :
    (⟨[⟨1, 2, [.fulfilled 1]⟩, ⟨1, 2, [.fulfilled 1]⟩], [], 5, 1, 1⟩ :
        RunLog Nat Unit).dispatched
      = (⟨[⟨1, 2, [.fulfilled 1]⟩, ⟨1, 2, [.fulfilled 1]⟩], [], 5, 1, 1⟩ :
        RunLog Nat Unit).settled := by
  exact claim_c5_amended [(⟨.ok 1, 5⟩ : Task Nat Unit), ⟨.ok 2, 5⟩] 1
    ⟨0, 0, fun t => decide (1 ≤ t)⟩ 0 (.error .abortError)
    ⟨[⟨1, 2, [.fulfilled 1]⟩, ⟨1, 2, [.fulfilled 1]⟩], [], 5, 1, 1⟩ rfl rfl

/-- C6: The rate-limiter delay computation returns `0` when the limit is
zero/absent, `0` when fewer than `limit` timestamps are recorded, `0` when
the count of timestamps younger than 1000 ms is below the limit, and
otherwise `oldestTimestampInWindow + 1000 - now + 10` clamped to `≥ 0` (for
genuine, positive clock values; the oldest-in-window timestamp is the first
recorded one younger than 1000 ms). -/
theorem claim_c6 (ts : List Int) (r : Nat) (now : Int) (hpos : ∀ t ∈ ts, 0 < t) :
    (r = 0 → getRateLimitDelay ts r now = 0) ∧
    (ts.length < r → getRateLimitDelay ts r now = 0) ∧
    ((ts.filter fun t => now - 1000 < t).length < r → getRateLimitDelay ts r now = 0) ∧
    ∀ t0 : Int, r ≠ 0 → r ≤ ts.length →
      r ≤ (ts.filter fun t => now - 1000 < t).length →
      ts.find? (fun t => now - 1000 < t) = some t0 →
      getRateLimitDelay ts r now = max 0 (t0 + 1000 - now + 10) := by
  refine ⟨?_, ?_, ?_, ?_⟩
  · intro h
    simp [getRateLimitDelay, h]
  · intro h
    simp [getRateLimitDelay, h]
  · intro h
    by_cases h0 : r = 0 ∨ ts.length < r
    · simp [getRateLimitDelay, h0]
    · simp only [getRateLimitDelay, if_neg h0]
      rw [if_pos h]
  · intro t0 hr hlen hfilt hfind
    have h0 : ¬ (r = 0 ∨ ts.length < r) := by omega
    have ht0 : 0 < t0 := hpos t0 (List.mem_of_find?_eq_some hfind)
    simp only [getRateLimitDelay, if_neg h0]
    rw [if_neg (show ¬ (ts.filter fun t => now - 1000 < t).length < r by omega), hfind]
    show max 0 ((if t0 = 0 then ts.headD 0 else t0) + 1000 - now + 10)
      = max 0 (t0 + 1000 - now + 10)
    rw [if_neg (show ¬ t0 = 0 by omega)]

theorem claim_c6_witness :
    getRateLimitDelay [600, 700] 2 1500 = max 0 (600 + 1000 - 1500 + 10) :=
  (claim_c6 [600, 700] 2 1500 (by decide)).2.2.2 600 (by decide) (by decide) (by decide)
    (by decide)

/-- C7 counterexample: in `chunk` with `rateLimit = 1`, after the second
dispatch is recorded the timestamp list holds 2 entries — the batch-mode
pruning bound is `rateLimit * 2`, not `rateLimit`, so the claimed single
consistent bound of `limitPerSecond` entries is violated. -/
theorem claim_c7_counterexample :
    (chunkTimed [(⟨.ok 1, 2000⟩ : Task Nat Unit), ⟨.ok 2, 0⟩] 2 ⟨0, 1, fun _ => false⟩ 0).map
        (fun p => p.2.timestamps) = some [0, 1010] ∧
    ¬ ([0, 1010] : List Int).length ≤ 1 :=
  ⟨rfl, by decide⟩

/-- C7 amended: after every dispatch is recorded, `q` retains at most
`rateLimit` timestamps while `chunk` retains at most `rateLimit * 2` — two
different pruning bounds, not one consistent one. -/
theorem claim_c7_amended (ts : List Int) (now : Int) (r : Nat) :
    (recordSeq ts now r).length ≤ r ∧ (recordBatch ts now r).length ≤ 2 * r :=
  ⟨recordSeq_length_le ts now r, recordBatch_length_le ts now r⟩

/-- C8: the pool constructor allocates exactly one shared rate-limiter state
(empty at creation); both returned entry points consult that one state —
each runs its algorithm on the pool's limiter and stores the final
timestamps back — and across any sequence of calls through either entry
point the single shared limiter stays bounded by twice the configured rate
limit. -/
theorem claim_c8 {α ε : Type} (o : PoolDefaults) :
    (makePool o).limiter = [] ∧
    (∀ (p : Pool) (fns : List (Task α ε)) (sig : Int → Bool) (t0 : Int),
      (runPool p (PoolCall.sequentialRun fns sig t0)).1.limiter
        = (qRunFrom fns ⟨p.defaults.timeout, p.defaults.rateLimit, sig⟩ t0
            p.limiter).2.timestamps) ∧
    (∀ (p : Pool) (fns : List (Task α ε)) (n : Nat) (sig : Int → Bool) (t0 : Int)
      (out : Except (JsError ε) (List (TaskResult α ε))) (log : RunLog α ε),
      chunkTimedFrom fns n ⟨p.defaults.timeout, p.defaults.rateLimit, sig⟩ t0 p.limiter
          = some (out, log) →
      (runPool p (PoolCall.batchedRun fns n sig t0)).1.limiter = log.timestamps) ∧
    ∀ calls : List (PoolCall α ε), (poolAfter o calls).limiter.length ≤ 2 * o.rateLimit := by
  have step : ∀ (p : Pool) (c : PoolCall α ε), p.defaults = o →
      p.limiter.length ≤ 2 * o.rateLimit →
      (runPool p c).1.defaults = o ∧ (runPool p c).1.limiter.length ≤ 2 * o.rateLimit := by
    intro p c hdef hlim
    subst hdef
    cases c with
    | sequentialRun fns sig t0 =>
      exact ⟨rfl, qGo_ts_bound (⟨p.defaults.timeout, p.defaults.rateLimit, sig⟩ : Opts)
        fns.length fns t0 p.limiter [] [] hlim⟩
    | batchedRun fns n sig t0 =>
      rcases hm : chunkTimedFrom fns n ⟨p.defaults.timeout, p.defaults.rateLimit, sig⟩ t0
          p.limiter with _ | q
      · constructor
        · simp only [runPool, hm]
        · simp only [runPool, hm]
          exact hlim
      · rcases q with ⟨out, log⟩
        have hb := chunkLoop_ts_bound (⟨p.defaults.timeout, p.defaults.rateLimit, sig⟩ : Opts)
          fns n (fns.length + 1) 0 t0 p.limiter [] [] 0 0 hlim out log hm
        constructor
        · simp only [runPool, hm]
        · simp only [runPool, hm]
          exact hb
  have fold : ∀ (calls : List (PoolCall α ε)) (p : Pool), p.defaults = o →
      p.limiter.length ≤ 2 * o.rateLimit →
      (calls.foldl (fun q c => (runPool q c).1) p).limiter.length ≤ 2 * o.rateLimit := by
    intro calls
    induction calls with
    | nil => intro p _ h; exact h
    | cons c rest ih =>
      intro p hdef hlim
      exact ih _ (step p c hdef hlim).1 (step p c hdef hlim).2
  refine ⟨rfl, fun p fns sig t0 => rfl, ?_, ?_⟩
  · intro p fns n sig t0 out log h
    simp [runPool, h]
  · intro calls
    exact fold calls (makePool o) rfl (by simp [makePool])

theorem claim_c8_witness :
    (poolAfter ⟨0, 1⟩
        [(PoolCall.batchedRun [(⟨.ok 1, 0⟩ : Task Nat Unit), ⟨.ok 2, 0⟩] 2
          (fun _ => false) 0 : PoolCall Nat Unit)]).limiter.length ≤ 2 * 1 :=
  (@claim_c8 Nat Unit ⟨0, 1⟩).2.2.2
    [PoolCall.batchedRun [⟨.ok 1, 0⟩, ⟨.ok 2, 0⟩] 2 (fun _ => false) 0]

/-- C9 counterexample: on a single failing task the two batching
implementations do not behave identically — the slice-and-recurse variant
rejects the whole call with the task's error, while the iterative settled
variant completes with a `rejected` entry at that index. -/
theorem claim_c9_counterexample :
    chunkRec [(⟨.error (.userError 7), 0⟩ : Task Nat Nat)] 1
      = some (.error (.userError 7)) ∧
    (chunkTimed [(⟨.error (.userError 7), 0⟩ : Task Nat Nat)] 1 ⟨0, 0, fun _ => false⟩ 0).map
        (fun p => p.1) = some (.ok [.rejected (.userError 7)]) :=
  ⟨rfl, rfl⟩

/-- C9 amended: whenever the slice-and-recurse implementation completes with
a value list, the iterative index-advancing implementation (with no options)
produces exactly those values in the same order, each wrapped as a
`fulfilled` settled result; on a task failure the two differ — the recursive
variant rejects wholesale while the iterative one records a `rejected`
entry. -/
theorem claim_c9_amended {α ε : Type} (fns : List (Task α ε)) (n : Nat) (t0 : Int)
    (vs : List α) (hn : 1 ≤ n) (h : chunkRec fns n = some (.ok vs)) :
    (chunkTimed fns n ⟨0, 0, fun _ => false⟩ t0).map (fun p => p.1)
      = some (.ok (vs.map TaskResult.fulfilled)) := by
  have hmap := chunkRecFuel_ok n (fns.length + 1) fns vs h
  rcases chunkLoop_never_abort (⟨0, 0, fun _ => false⟩ : Opts) fns n (fun _ => rfl) hn
    (fns.length + 1) 0 t0 [] [] [] 0 0 (by omega) with ⟨log, hlog⟩
  show (chunkLoop _ fns n (fns.length + 1) 0 t0 [] [] [] 0 0).map (fun p => p.1) = _
  rw [hlog]
  simp [hmap]

theorem claim_c9_amended_witness :
    (chunkTimed [(⟨.ok 3, 0⟩ : Task Nat Unit)] 1 ⟨0, 0, fun _ => false⟩ 0).map (fun p => p.1)
      = some (.ok [TaskResult.fulfilled 3]) :=
  claim_c9_amended [(⟨.ok 3, 0⟩ : Task Nat Unit)] 1 0 [3] (by decide) rfl

/-- C10: for every finite task list and batch size `n ≥ 1`, `chunk`
terminates and processes each input task exactly once (its results are the
per-index settled outcomes); the precondition `n ≥ 1` is essential — with
`n = 0` on a non-empty list the iterative loop never advances its index and
the recursive variant never shrinks its input, so neither terminates under
any fuel. -/
theorem claim_c10 {α ε : Type} (fns : List (Task α ε)) (n : Nat) (hn : 1 ≤ n) (t0 : Int) :
    ((chunkTimed fns n ⟨0, 0, fun _ => false⟩ t0).map (fun p => p.1)
      = some (.ok (fns.map fun t => execTask t 0))) ∧
    ∀ (fn : Task α ε) (rest : List (Task α ε)), fns = fn :: rest →
      (∀ (fuel : Nat) (ts : List Int) (results : List (TaskResult α ε))
        (trace : List (ProgressInfo α ε)) (dc sc : Nat),
        chunkLoop (⟨0, 0, fun _ => false⟩ : Opts) fns 0 fuel 0 t0 ts results trace dc sc
          = none) ∧
      ∀ fuel : Nat, chunkRecFuel 0 fuel fns = none := by
  constructor
  · rcases chunkLoop_never_abort (⟨0, 0, fun _ => false⟩ : Opts) fns n (fun _ => rfl) hn
      (fns.length + 1) 0 t0 [] [] [] 0 0 (by omega) with ⟨log, hlog⟩
    show (chunkLoop _ fns n (fns.length + 1) 0 t0 [] [] [] 0 0).map (fun p => p.1) = _
    rw [hlog]
    rfl
  · intro fn rest hfns
    constructor
    · intro fuel ts results trace dc sc
      exact chunkLoop_n_zero_diverges _ fns (by rw [hfns]; simp) t0 rfl fuel ts results
        trace dc sc
    · intro fuel
      rw [hfns]
      exact chunkRecFuel_n_zero_diverges fn rest fuel

theorem claim_c10_witness :
    ((chunkTimed [(⟨.ok 1, 0⟩ : Task Nat Unit)] 1 ⟨0, 0, fun _ => false⟩ 0).map (fun p => p.1)
      = some (.ok [TaskResult.fulfilled 1])) ∧
    chunkLoop (⟨0, 0, fun _ => false⟩ : Opts) [(⟨.ok 1, 0⟩ : Task Nat Unit)] 0 3 0 0
      [] [] [] 0 0 = none ∧
    chunkRecFuel 0 3 [(⟨.ok 1, 0⟩ : Task Nat Unit)] = none := by
  have h := claim_c10 [(⟨.ok 1, 0⟩ : Task Nat Unit)] 1 (by decide) 0
  have h2 := h.2 ⟨.ok 1, 0⟩ [] rfl
  exact ⟨h.1.trans (by rfl), h2.1 3 [] [] [] 0 0, h2.2 3⟩

end QChunk
